import Mathlib

/-!
Shallow embedding of the transaction-readiness and consensus-rejection
tracking subsystem (crates/sui-core): the Mysticeti rejected-transactions
tracker, the v2 transaction manager's enqueue/schedule path, and the
wait-for-effects request codec.  Rust `u64`/`u32` rounds and indices are
modelled as `Nat` (no arithmetic in the source can overflow the claims
considered here); `HashSet` becomes `Finset`; `BTreeMap` becomes an
association list sorted strictly ascending by key, which is the
representation invariant `BTreeMap` maintains.
-/

/-- `consensus_core::BlockRef`: round, authority index and block digest.
The digest is kept as its byte list (32 bytes in the real type). -/
structure BlockRef where
  round : Nat
  author : Nat
  digest : List Nat
  deriving DecidableEq

/-- `MysticetiTransactionPosition` from `wait_for_effects_request.rs`. -/
structure MysticetiTransactionPosition where
  block_ref : BlockRef
  transaction_index : Nat
  deriving DecidableEq

/-- The `SuiError` variants produced by the embedded code paths. -/
inductive SuiErrorModel where
  | transactionRejectedByConsensus (reason : String)
  | grpcMessageSerdeError (msg : String)
  deriving DecidableEq

/-- `ROUND_EXPIRATION` from `mysticeti_rejected_transactions.rs` (line 17). -/
def ROUND_EXPIRATION : Nat := 100

/-- The `Inner` state of `MysticetiRejectedTransactions`:
rejected set, round-indexed buckets (sorted association list standing for
the `BTreeMap`), and the last committed round. -/
structure InnerState where
  rejected_transactions : Finset MysticetiTransactionPosition
  round_lookup_map : List (Nat × Finset MysticetiTransactionPosition)
  last_committed_round : Option Nat
  deriving DecidableEq

/-- `InnerState::default()`: everything empty. -/
def InnerState.empty : InnerState :=
  { rejected_transactions := ∅, round_lookup_map := [], last_committed_round := none }

/-- `round_lookup_map.entry(r).or_default().insert(p)` on the sorted
association list: insert `p` into the bucket at key `r`, creating the
bucket at its sorted place when absent. -/
def mapInsert (r : Nat) (p : MysticetiTransactionPosition) :
    List (Nat × Finset MysticetiTransactionPosition) →
    List (Nat × Finset MysticetiTransactionPosition)
  | [] => [(r, {p})]
  | (k, s) :: rest =>
    if r < k then (r, {p}) :: (k, s) :: rest
    else if r = k then (k, insert p s) :: rest
    else (k, s) :: mapInsert r p rest

/-- The insertion half of `reject_transaction` (lines 50-57): add the
position to `rejected_transactions` and to its round's bucket. -/
def insertRejected (inner : InnerState) (p : MysticetiTransactionPosition) : InnerState :=
  { inner with
    rejected_transactions := insert p inner.rejected_transactions
    round_lookup_map := mapInsert p.block_ref.round p inner.round_lookup_map }

/-- `MysticetiRejectedTransactions::reject_transaction` (lines 43-59).
Returns the new state together with whether `status_notify_read.notify`
was invoked for the position (`true` exactly on the non-stale path). -/
def reject_transaction (inner : InnerState) (p : MysticetiTransactionPosition) :
    InnerState × Bool :=
  match inner.last_committed_round with
  | some lcr =>
    if p.block_ref.round + ROUND_EXPIRATION < lcr then (inner, false)
    else (insertRejected inner p, true)
  | none => (insertRejected inner p, true)

/-- The `while let` loop of `update_last_committed_round` (lines 117-126):
pop the lowest key while it is expired, removing its bucket from the map
and its members from the rejected set. -/
def gcExpire (round : Nat) :
    List (Nat × Finset MysticetiTransactionPosition) →
    Finset MysticetiTransactionPosition →
    List (Nat × Finset MysticetiTransactionPosition) × Finset MysticetiTransactionPosition
  | [], rejected => ([], rejected)
  | (k, s) :: rest, rejected =>
    if k + ROUND_EXPIRATION < round then gcExpire round rest (rejected \ s)
    else ((k, s) :: rest, rejected)

/-- `MysticetiRejectedTransactions::update_last_committed_round`
(lines 114-128). -/
def update_last_committed_round (inner : InnerState) (round : Nat) : InnerState :=
  let res := gcExpire round inner.round_lookup_map inner.rejected_transactions
  { rejected_transactions := res.2
    round_lookup_map := res.1
    last_committed_round := some round }

/-- The winner of the `tokio::select!` race in `wait_for_rejection`
(lines 101-111), when no immediate return happened: the notify
registration resolved, the expiration poll observed an expired round, or
the caller's timeout elapsed. -/
inductive WaitWinner where
  | notified
  | expired
  | timedOut
  deriving DecidableEq

/-- The immediate phase of `wait_for_rejection` (lines 75-85): after
registering, if the position is already in `rejected_transactions` the
function returns at once, with the reason string the source actually
contains ("Rejectd", line 83). -/
def wait_for_rejection_immediate (inner : InnerState)
    (p : MysticetiTransactionPosition) : Option SuiErrorModel :=
  if p ∈ inner.rejected_transactions then
    some (SuiErrorModel.transactionRejectedByConsensus "Rejectd")
  else none

/-- `MysticetiRejectedTransactions::wait_for_rejection` (lines 70-112):
the immediate check, then the three-way race whose winner is supplied as
a parameter (the scheduler's choice is nondeterministic). -/
def wait_for_rejection (inner : InnerState) (p : MysticetiTransactionPosition)
    (winner : WaitWinner) : SuiErrorModel :=
  match wait_for_rejection_immediate inner p with
  | some e => e
  | none =>
    match winner with
    | .notified => .transactionRejectedByConsensus "Rejected"
    | .expired => .transactionRejectedByConsensus "Expired"
    | .timedOut => .transactionRejectedByConsensus "TimedOut"

/-- States reachable from the empty tracker by any sequence of
`reject_transaction` and `update_last_committed_round` calls. -/
inductive Reachable : InnerState → Prop where
  | init : Reachable InnerState.empty
  | reject (s : InnerState) (p : MysticetiTransactionPosition) :
      Reachable s → Reachable (reject_transaction s p).1
  | update (s : InnerState) (r : Nat) :
      Reachable s → Reachable (update_last_committed_round s r)

/-- Representation/consistency invariant of the tracker state: the
association-list keys are strictly ascending (the `BTreeMap` invariant),
every bucket member sits at its own round's key, and a position is
rejected iff it is in some bucket. -/
def StateInv (s : InnerState) : Prop :=
  s.round_lookup_map.Pairwise (fun a b => a.1 < b.1) ∧
  (∀ e ∈ s.round_lookup_map, ∀ p ∈ e.2, p.block_ref.round = e.1) ∧
  (∀ p ∈ s.rejected_transactions, ∃ e ∈ s.round_lookup_map, p ∈ e.2) ∧
  (∀ e ∈ s.round_lookup_map, ∀ p ∈ e.2, p ∈ s.rejected_transactions)

instance (s : InnerState) : Decidable (StateInv s) := by
  unfold StateInv
  infer_instance

/-- A verified executable transaction as `TransactionManagerV2` consults
it: its epoch and its digest (all other content is opaque to the
scheduling logic embedded here). -/
structure ExecutableTransaction where
  epoch : Nat
  digest : Nat
  deriving DecidableEq

/-- `PendingCertificateStats` (enqueue and ready instants, as abstract
clock readings). -/
structure PendingCertificateStats where
  enqueue_time : Nat
  ready_time : Option Nat
  deriving DecidableEq

/-- `PendingCertificate` as built by `schedule_transaction`
(transaction_manager_v2.rs lines 158-166). -/
structure PendingCertificate where
  certificate : ExecutableTransaction
  expected_effects_digest : Option Nat
  waiting_input_objects : List Nat
  stats : PendingCertificateStats
  deriving DecidableEq

/-- `TransactionManagerV2::enqueue_impl` (lines 81-108): filter out
certificates whose epoch differs from the epoch store's epoch, and spawn
one `schedule_transaction` task per survivor.  The returned list is the
list of spawned tasks' arguments, in order. -/
def enqueue_impl (certs : List (ExecutableTransaction × Option Nat))
    (storeEpoch : Nat) : List (ExecutableTransaction × Option Nat) :=
  certs.filterMap (fun cert =>
    if cert.fst.epoch = storeEpoch then some cert else none)

/-- `TransactionManagerV2::enqueue` (lines 72-79): pair each certificate
with no expected effects digest, then `enqueue_impl`. -/
def enqueue (certs : List ExecutableTransaction) (storeEpoch : Nat) :
    List (ExecutableTransaction × Option Nat) :=
  enqueue_impl (certs.map (fun cert => (cert, none))) storeEpoch

/-- `TransactionManagerV2::enqueue_with_expected_effects_digest`
(lines 48-58): pair each certificate with its expected digest, then
`enqueue_impl`. -/
def enqueue_with_expected_effects_digest
    (certs : List (ExecutableTransaction × Nat)) (storeEpoch : Nat) :
    List (ExecutableTransaction × Option Nat) :=
  enqueue_impl (certs.map (fun cert => (cert.fst, some cert.snd))) storeEpoch

/-- The winner of the `tokio::select!` race in `schedule_transaction`
(lines 154-171): either all input objects became available, or the
transaction's executed effects appeared first. -/
inductive RaceWinner where
  | inputsAvailable
  | effectsExecuted
  deriving DecidableEq

/-- `TransactionManagerV2::schedule_transaction` (lines 110-172).
`inputKeysResult` stands for the outcome of
`epoch_store.get_input_object_keys` (an external capability, spec §6);
`winner` is the nondeterministic race outcome.  The returned list holds
everything sent on the `tx_ready_certificates` channel. -/
def schedule_transaction (cert : ExecutableTransaction)
    (expected_effects_digest : Option Nat)
    (inputKeysResult : Option (List Nat)) (winner : RaceWinner)
    (enqueue_time ready_time : Nat) : List PendingCertificate :=
  match inputKeysResult with
  | none => []
  | some _keys =>
    match winner with
    | .inputsAvailable =>
      [{ certificate := cert
         expected_effects_digest := expected_effects_digest
         waiting_input_objects := []
         stats := { enqueue_time := enqueue_time, ready_time := some ready_time } }]
    | .effectsExecuted => []

/-- Modelled from the spec: `bcs` little-endian encoding of a `u32`
("a canonical deterministic binary serialization"); the library itself is
outside this repository. -/
def encodeU32 (n : Nat) : List Nat :=
  [n % 256, n / 256 % 256, n / 65536 % 256, n / 16777216 % 256]

/-- Modelled from the spec: `bcs` decoding of a `u32`, consuming four
bytes of the input. -/
def decodeU32 : List Nat → Option (Nat × List Nat)
  | b0 :: b1 :: b2 :: b3 :: rest =>
    some (b0 + 256 * b1 + 65536 * b2 + 16777216 * b3, rest)
  | _ => none

/-- Reads `n` raw bytes (a fixed-size array in `bcs`). -/
def readBytes (n : Nat) (l : List Nat) : Option (List Nat × List Nat) :=
  if n ≤ l.length then some (l.take n, l.drop n) else none

/-- Modelled from the spec: `bcs` encoding of a `MysticetiTransactionPosition`
(round and authority as `u32`, the 32-byte block digest raw, then the
`u32` transaction index). -/
def encodePosition (p : MysticetiTransactionPosition) : List Nat :=
  encodeU32 p.block_ref.round ++ encodeU32 p.block_ref.author ++
    p.block_ref.digest ++ encodeU32 p.transaction_index

/-- Modelled from the spec: `bcs::from_bytes` for
`MysticetiTransactionPosition`; fails unless the whole input is consumed. -/
def decodePosition (l : List Nat) : Option MysticetiTransactionPosition :=
  match decodeU32 l with
  | none => none
  | some (round, l1) =>
    match decodeU32 l1 with
    | none => none
    | some (author, l2) =>
      match readBytes 32 l2 with
      | none => none
      | some (digest, l3) =>
        match decodeU32 l3 with
        | none => none
        | some (txIndex, l4) =>
          if l4.isEmpty then some ⟨⟨round, author, digest⟩, txIndex⟩ else none

/-- Modelled from the spec: `bcs` encoding of a transaction digest, a
length-prefixed byte string ("independently length-prefixed-encoded"). -/
def encodeDigestBytes (bs : List Nat) : List Nat :=
  bs.length :: bs

/-- Modelled from the spec: `bcs::from_bytes` for a transaction digest;
fails unless the whole input is consumed. -/
def decodeDigestBytes (l : List Nat) : Option (List Nat) :=
  match l with
  | [] => none
  | n :: rest =>
    match readBytes n rest with
    | none => none
    | some (bs, rest2) => if rest2.isEmpty then some bs else none

/-- `WaitForEffectsRequest` (wait_for_effects_request.rs lines 19-25),
with the transaction digest kept as its 32 bytes. -/
structure WaitForEffectsRequest where
  transaction_digest : List Nat
  transaction_position : MysticetiTransactionPosition
  include_events : Bool
  include_input_objects : Bool
  include_output_objects : Bool
  deriving DecidableEq

/-- `RawWaitForEffectsRequest`: digest and position as opaque byte
payloads, the flags verbatim. -/
structure RawWaitForEffectsRequest where
  transaction_digest : List Nat
  transaction_position : List Nat
  include_events : Bool
  include_input_objects : Bool
  include_output_objects : Bool
  deriving DecidableEq

/-- `TryFrom<WaitForEffectsRequest> for RawWaitForEffectsRequest`
(lines 89-107): `bcs`-encode digest and position, copy the flags.
Encoding of well-formed values never fails, so this side is total. -/
def rawOfRequest (req : WaitForEffectsRequest) : RawWaitForEffectsRequest :=
  { transaction_digest := encodeDigestBytes req.transaction_digest
    transaction_position := encodePosition req.transaction_position
    include_events := req.include_events
    include_input_objects := req.include_input_objects
    include_output_objects := req.include_output_objects }

/-- `TryFrom<RawWaitForEffectsRequest> for WaitForEffectsRequest`
(lines 34-50): `bcs`-decode digest and position, copy the flags; any
decode failure aborts with a serde error (here: `none`). -/
def requestOfRaw (raw : RawWaitForEffectsRequest) : Option WaitForEffectsRequest :=
  match decodeDigestBytes raw.transaction_digest with
  | none => none
  | some d =>
    match decodePosition raw.transaction_position with
    | none => none
    | some p =>
      some { transaction_digest := d
             transaction_position := p
             include_events := raw.include_events
             include_input_objects := raw.include_input_objects
             include_output_objects := raw.include_output_objects }

/-- Successfully encodable requests: the digests have their 32 bytes and
the `u32` fields are in range (they are `u32` by type in the source). -/
def RequestWF (req : WaitForEffectsRequest) : Prop :=
  req.transaction_digest.length = 32 ∧
  req.transaction_position.block_ref.round < 4294967296 ∧
  req.transaction_position.block_ref.author < 4294967296 ∧
  req.transaction_position.block_ref.digest.length = 32 ∧
  req.transaction_position.transaction_index < 4294967296

instance (req : WaitForEffectsRequest) : Decidable (RequestWF req) := by
  unfold RequestWF
  infer_instance

/-- Position at a given round used by the concrete scenarios below. -/
def posAt (r : Nat) : MysticetiTransactionPosition :=
  ⟨⟨r, 0, []⟩, 0⟩

/-- Tracker state after rejecting one position at round 1. -/
def trackerS1 : InnerState :=
  (reject_transaction InnerState.empty (posAt 1)).1

/-- Tracker state after rejecting positions at rounds 1, 2, 3, 4, 5. -/
def trackerS5 : InnerState :=
  (reject_transaction
    (reject_transaction
      (reject_transaction
        (reject_transaction
          (reject_transaction InnerState.empty (posAt 1)).1 (posAt 2)).1
        (posAt 3)).1 (posAt 4)).1 (posAt 5)).1

/-- A tracker state whose last committed round is 200 (for the stale
no-op scenario). -/
def trackerStale : InnerState :=
  { rejected_transactions := ∅, round_lookup_map := [], last_committed_round := some 200 }

/-- A tracker state holding one retained round 60 with last committed
round 150 (for the round-regression scenario). -/
def trackerHigh : InnerState :=
  { rejected_transactions := {posAt 60}
    round_lookup_map := [(60, {posAt 60})]
    last_committed_round := some 150 }

/-- A concrete well-formed wait-for-effects request. -/
def sampleRequest : WaitForEffectsRequest :=
  { transaction_digest := List.replicate 32 7
    transaction_position := ⟨⟨1, 2, List.replicate 32 3⟩, 4⟩
    include_events := true
    include_input_objects := false
    include_output_objects := true }

/-- Every key of `mapInsert r p m` is `r` or a key of `m`. -/
theorem mapInsert_fst_mem {r : Nat} {p : MysticetiTransactionPosition}
    {m : List (Nat × Finset MysticetiTransactionPosition)}
    {e : Nat × Finset MysticetiTransactionPosition}
    (he : e ∈ mapInsert r p m) : e.1 = r ∨ e.1 ∈ m.map Prod.fst := by
  induction m with
  | nil =>
    simp only [mapInsert, List.mem_singleton] at he
    simp [he]
  | cons hd tl ih =>
    obtain ⟨k, s⟩ := hd
    simp only [mapInsert] at he
    split_ifs at he with h1 h2
    · simp only [List.mem_cons] at he
      rcases he with rfl | rfl | he
      · simp
      · simp
      · simp only [List.map_cons, List.mem_cons]
        right
        right
        exact List.mem_map.mpr ⟨e, he, rfl⟩
    · simp only [List.mem_cons] at he
      rcases he with rfl | he
      · simp [h2]
      · simp only [List.map_cons, List.mem_cons]
        right
        right
        exact List.mem_map.mpr ⟨e, he, rfl⟩
    · simp only [List.mem_cons] at he
      rcases he with rfl | he
      · simp
      · rcases ih he with h | h
        · exact Or.inl h
        · simp only [List.map_cons, List.mem_cons]
          exact Or.inr (Or.inr h)

/-- `mapInsert` preserves strict ascending ordering of the keys. -/
theorem mapInsert_pairwise {r : Nat} {p : MysticetiTransactionPosition}
    {m : List (Nat × Finset MysticetiTransactionPosition)}
    (hm : m.Pairwise (fun a b => a.1 < b.1)) :
    (mapInsert r p m).Pairwise (fun a b => a.1 < b.1) := by
  induction m with
  | nil => simp [mapInsert]
  | cons hd tl ih =>
    obtain ⟨k, s⟩ := hd
    rw [List.pairwise_cons] at hm
    obtain ⟨hk, htl⟩ := hm
    simp only [mapInsert]
    split_ifs with h1 h2
    · refine List.Pairwise.cons ?_ (List.Pairwise.cons hk htl)
      intro b hb
      simp only [List.mem_cons] at hb
      rcases hb with rfl | hb
      · exact h1
      · exact lt_trans h1 (hk b hb)
    · subst h2
      exact List.Pairwise.cons hk htl
    · refine List.Pairwise.cons ?_ (ih htl)
      intro b hb
      rcases mapInsert_fst_mem hb with h | h
      · simp only [h]
        omega
      · obtain ⟨a, ha, hab⟩ := List.mem_map.mp h
        have := hk a ha
        omega

/-- Bucket membership after `mapInsert`: exactly the old members plus `p`. -/
theorem mapInsert_mem_iff {r : Nat} {p q : MysticetiTransactionPosition}
    {m : List (Nat × Finset MysticetiTransactionPosition)} :
    (∃ e ∈ mapInsert r p m, q ∈ e.2) ↔ q = p ∨ ∃ e ∈ m, q ∈ e.2 := by
  induction m with
  | nil => simp [mapInsert]
  | cons hd tl ih =>
    obtain ⟨k, s⟩ := hd
    simp only [mapInsert]
    split_ifs with h1 h2
    · simp only [List.mem_cons, List.mem_singleton]
      constructor
      · rintro ⟨e, he, hq⟩
        rcases he with rfl | rfl | he
        · simp only [Finset.mem_singleton] at hq
          exact Or.inl hq
        · exact Or.inr ⟨(k, s), Or.inl rfl, hq⟩
        · exact Or.inr ⟨e, Or.inr he, hq⟩
      · rintro (rfl | ⟨e, he, hq⟩)
        · exact ⟨(r, {q}), Or.inl rfl, Finset.mem_singleton_self q⟩
        · rcases he with rfl | he
          · exact ⟨(k, s), Or.inr (Or.inl rfl), hq⟩
          · exact ⟨e, Or.inr (Or.inr he), hq⟩
    · simp only [List.mem_cons]
      constructor
      · rintro ⟨e, he, hq⟩
        rcases he with rfl | he
        · simp only [Finset.mem_insert] at hq
          rcases hq with rfl | hq
          · exact Or.inl rfl
          · exact Or.inr ⟨(k, s), Or.inl rfl, hq⟩
        · exact Or.inr ⟨e, Or.inr he, hq⟩
      · rintro (rfl | ⟨e, he, hq⟩)
        · exact ⟨(k, insert q s), Or.inl rfl, Finset.mem_insert_self q s⟩
        · rcases he with rfl | he
          · exact ⟨(k, insert p s), Or.inl rfl, Finset.mem_insert_of_mem hq⟩
          · exact ⟨e, Or.inr he, hq⟩
    · simp only [List.mem_cons]
      constructor
      · rintro ⟨e, he, hq⟩
        rcases he with rfl | he
        · exact Or.inr ⟨(k, s), Or.inl rfl, hq⟩
        · rcases ih.mp ⟨e, he, hq⟩ with h | ⟨e', he', hq'⟩
          · exact Or.inl h
          · exact Or.inr ⟨e', Or.inr he', hq'⟩
      · rintro (rfl | ⟨e, he, hq⟩)
        · obtain ⟨e, he, hq⟩ := ih.mpr (Or.inl rfl)
          exact ⟨e, Or.inr he, hq⟩
        · rcases he with rfl | he
          · exact ⟨(k, s), Or.inl rfl, hq⟩
          · obtain ⟨e', he', hq'⟩ := ih.mpr (Or.inr ⟨e, he, hq⟩)
            exact ⟨e', Or.inr he', hq'⟩

/-- `mapInsert` at the position's own round keeps every bucket member at
its own round's key. -/
theorem mapInsert_bucket_round {p : MysticetiTransactionPosition}
    {m : List (Nat × Finset MysticetiTransactionPosition)}
    (hm : ∀ e ∈ m, ∀ q ∈ e.2, q.block_ref.round = e.1) :
    ∀ e ∈ mapInsert p.block_ref.round p m, ∀ q ∈ e.2, q.block_ref.round = e.1 := by
  induction m with
  | nil =>
    intro e he q hq
    simp only [mapInsert, List.mem_singleton] at he
    subst he
    simp only [Finset.mem_singleton] at hq
    subst hq
    rfl
  | cons hd tl ih =>
    obtain ⟨k, s⟩ := hd
    intro e he q hq
    simp only [mapInsert] at he
    split_ifs at he with h1 h2
    · simp only [List.mem_cons] at he
      rcases he with rfl | rfl | he
      · simp only [Finset.mem_singleton] at hq
        subst hq
        rfl
      · exact hm (k, s) (List.mem_cons_self _ _) q hq
      · exact hm e (List.mem_cons_of_mem _ he) q hq
    · simp only [List.mem_cons] at he
      rcases he with rfl | he
      · simp only [Finset.mem_insert] at hq
        rcases hq with rfl | hq
        · exact h2
        · exact hm (k, s) (List.mem_cons_self _ _) q hq
      · exact hm e (List.mem_cons_of_mem _ he) q hq
    · simp only [List.mem_cons] at he
      rcases he with rfl | he
      · exact hm (k, s) (List.mem_cons_self _ _) q hq
      · exact ih (fun e' he' => hm e' (List.mem_cons_of_mem _ he')) e he q hq

/-- Inserting the same position twice into the round index is the same as
inserting it once. -/
theorem mapInsert_idem (r : Nat) (p : MysticetiTransactionPosition)
    (m : List (Nat × Finset MysticetiTransactionPosition)) :
    mapInsert r p (mapInsert r p m) = mapInsert r p m := by
  induction m with
  | nil => simp [mapInsert]
  | cons hd tl ih =>
    obtain ⟨k, s⟩ := hd
    by_cases h1 : r < k
    · simp [mapInsert, h1]
    · by_cases h2 : r = k
      · simp [mapInsert, h1, h2]
      · simp only [mapInsert, if_neg h1, if_neg h2, List.cons.injEq, true_and]
        exact ih

/-- Characterization of the expiry loop on a consistent state: it removes
exactly the expired rounds from the map and exactly the expired positions
from the rejected set. -/
theorem gcExpire_eq (r : Nat) (m : List (Nat × Finset MysticetiTransactionPosition))
    (rej : Finset MysticetiTransactionPosition)
    (hpair : m.Pairwise (fun a b => a.1 < b.1))
    (hround : ∀ e ∈ m, ∀ q ∈ e.2, q.block_ref.round = e.1)
    (hmem1 : ∀ q ∈ rej, ∃ e ∈ m, q ∈ e.2)
    (hmem2 : ∀ e ∈ m, ∀ q ∈ e.2, q ∈ rej) :
    gcExpire r m rej =
      (m.filter (fun e => decide (r ≤ e.1 + ROUND_EXPIRATION)),
       rej.filter (fun q => r ≤ q.block_ref.round + ROUND_EXPIRATION)) := by
  induction m generalizing rej with
  | nil =>
    have hempty : rej = ∅ := by
      apply Finset.eq_empty_of_forall_not_mem
      intro q hq
      obtain ⟨e, he, _⟩ := hmem1 q hq
      exact absurd he (List.not_mem_nil e)
    subst hempty
    simp [gcExpire]
  | cons hd tl ih =>
    obtain ⟨k, s⟩ := hd
    rw [List.pairwise_cons] at hpair
    obtain ⟨hk, htl⟩ := hpair
    by_cases hexp : k + ROUND_EXPIRATION < r
    · have hstep : gcExpire r ((k, s) :: tl) rej = gcExpire r tl (rej \ s) := by
        simp [gcExpire, hexp]
      rw [hstep]
      have hround' : ∀ e ∈ tl, ∀ q ∈ e.2, q.block_ref.round = e.1 :=
        fun e he => hround e (List.mem_cons_of_mem _ he)
      have hmem1' : ∀ q ∈ rej \ s, ∃ e ∈ tl, q ∈ e.2 := by
        intro q hq
        rw [Finset.mem_sdiff] at hq
        obtain ⟨e, he, hqe⟩ := hmem1 q hq.1
        simp only [List.mem_cons] at he
        rcases he with rfl | he
        · exact absurd hqe hq.2
        · exact ⟨e, he, hqe⟩
      have hmem2' : ∀ e ∈ tl, ∀ q ∈ e.2, q ∈ rej \ s := by
        intro e he q hq
        rw [Finset.mem_sdiff]
        refine ⟨hmem2 e (List.mem_cons_of_mem _ he) q hq, ?_⟩
        intro hqs
        have h1 : q.block_ref.round = k := hround (k, s) (List.mem_cons_self _ _) q hqs
        have h2 : q.block_ref.round = e.1 := hround' e he q hq
        have h3 : k < e.1 := hk e he
        omega
      rw [ih (rej \ s) htl hround' hmem1' hmem2']
      have hfilterList :
          List.filter (fun e => decide (r ≤ e.1 + ROUND_EXPIRATION)) ((k, s) :: tl) =
          List.filter (fun e => decide (r ≤ e.1 + ROUND_EXPIRATION)) tl := by
        rw [List.filter_cons]
        simp only [decide_eq_true_eq]
        rw [if_neg (by omega)]
      have hfilterSet :
          Finset.filter (fun q => r ≤ q.block_ref.round + ROUND_EXPIRATION) (rej \ s) =
          Finset.filter (fun q => r ≤ q.block_ref.round + ROUND_EXPIRATION) rej := by
        ext q
        simp only [Finset.mem_filter, Finset.mem_sdiff]
        constructor
        · rintro ⟨⟨hq, _⟩, hcond⟩
          exact ⟨hq, hcond⟩
        · rintro ⟨hq, hcond⟩
          refine ⟨⟨hq, ?_⟩, hcond⟩
          intro hqs
          have h1 : q.block_ref.round = k := hround (k, s) (List.mem_cons_self _ _) q hqs
          omega
      rw [hfilterList, hfilterSet]
    · have hstep : gcExpire r ((k, s) :: tl) rej = ((k, s) :: tl, rej) := by
        simp [gcExpire, hexp]
      rw [hstep]
      have hlist : List.filter (fun e => decide (r ≤ e.1 + ROUND_EXPIRATION)) ((k, s) :: tl)
          = (k, s) :: tl := by
        rw [List.filter_eq_self]
        intro e he
        simp only [List.mem_cons] at he
        simp only [decide_eq_true_eq]
        rcases he with rfl | he
        · omega
        · have := hk e he
          omega
      have hset : Finset.filter (fun q => r ≤ q.block_ref.round + ROUND_EXPIRATION) rej
          = rej := by
        apply Finset.filter_true_of_mem
        intro q hq
        obtain ⟨e, he, hqe⟩ := hmem1 q hq
        have hr : q.block_ref.round = e.1 := hround e he q hqe
        simp only [List.mem_cons] at he
        rcases he with rfl | he
        · omega
        · have := hk e he
          omega
      rw [hlist, hset]

/-- The empty tracker state is consistent. -/
theorem stateInv_empty : StateInv InnerState.empty := by
  refine ⟨?_, ?_, ?_, ?_⟩ <;> simp [InnerState.empty]

/-- The insertion half of `reject_transaction` preserves consistency. -/
theorem stateInv_insertRejected (s : InnerState) (p : MysticetiTransactionPosition)
    (hs : StateInv s) : StateInv (insertRejected s p) := by
  obtain ⟨hpair, hround, hmem1, hmem2⟩ := hs
  refine ⟨mapInsert_pairwise hpair, mapInsert_bucket_round hround, ?_, ?_⟩
  · intro q hq
    simp only [insertRejected, Finset.mem_insert] at hq
    rcases hq with rfl | hq
    · exact mapInsert_mem_iff.mpr (Or.inl rfl)
    · exact mapInsert_mem_iff.mpr (Or.inr (hmem1 q hq))
  · intro e he q hq
    simp only [insertRejected, Finset.mem_insert]
    rcases mapInsert_mem_iff.mp ⟨e, he, hq⟩ with h | ⟨e', he', hq'⟩
    · exact Or.inl h
    · exact Or.inr (hmem2 e' he' q hq')

/-- `reject_transaction` preserves consistency. -/
theorem stateInv_reject (s : InnerState) (p : MysticetiTransactionPosition)
    (hs : StateInv s) : StateInv (reject_transaction s p).1 := by
  unfold reject_transaction
  cases s.last_committed_round with
  | none => exact stateInv_insertRejected s p hs
  | some lcr =>
    by_cases h : p.block_ref.round + ROUND_EXPIRATION < lcr
    · simpa [h] using hs
    · simpa [h] using stateInv_insertRejected s p hs

/-- On a consistent state the round update is exactly a filter on both
structures, plus setting the round. -/
theorem update_eq_of_stateInv (s : InnerState) (r : Nat) (hs : StateInv s) :
    update_last_committed_round s r =
      { rejected_transactions :=
          s.rejected_transactions.filter (fun q => r ≤ q.block_ref.round + ROUND_EXPIRATION)
        round_lookup_map :=
          s.round_lookup_map.filter (fun e => decide (r ≤ e.1 + ROUND_EXPIRATION))
        last_committed_round := some r } := by
  obtain ⟨hpair, hround, hmem1, hmem2⟩ := hs
  unfold update_last_committed_round
  rw [gcExpire_eq r s.round_lookup_map s.rejected_transactions hpair hround hmem1 hmem2]

/-- `update_last_committed_round` preserves consistency. -/
theorem stateInv_update (s : InnerState) (r : Nat)
    (hs : StateInv s) : StateInv (update_last_committed_round s r) := by
  rw [update_eq_of_stateInv s r hs]
  obtain ⟨hpair, hround, hmem1, hmem2⟩ := hs
  refine ⟨?_, ?_, ?_, ?_⟩
  · exact hpair.sublist (List.filter_sublist _)
  · intro e he q hq
    exact hround e (List.mem_of_mem_filter he) q hq
  · intro q hq
    simp only [Finset.mem_filter] at hq
    obtain ⟨hqr, hcond⟩ := hq
    obtain ⟨e, he, hqe⟩ := hmem1 q hqr
    have hr : q.block_ref.round = e.1 := hround e he q hqe
    refine ⟨e, List.mem_filter.mpr ⟨he, ?_⟩, hqe⟩
    simp only [decide_eq_true_eq]
    omega
  · intro e he q hq
    have he' := List.mem_of_mem_filter he
    have hcond := List.of_mem_filter he
    simp only [decide_eq_true_eq] at hcond
    have hr : q.block_ref.round = e.1 := hround e he' q hq
    exact Finset.mem_filter.mpr ⟨hmem2 e he' q hq, by omega⟩

/-- Every reachable tracker state is consistent. -/
theorem reachable_stateInv (s : InnerState) (hs : Reachable s) : StateInv s := by
  induction hs with
  | init => exact stateInv_empty
  | reject s p _ ih => exact stateInv_reject s p ih
  | update s r _ ih => exact stateInv_update s r ih

/-- C2: in every reachable tracker state a position is in the rejected set
iff it is in some bucket of the round-indexed map; reachability is closure
under `reject_transaction` and `update_last_committed_round` from the
empty state, so every operation preserves the invariant. -/
theorem rejected_iff_round_indexed (s : InnerState) (hs : Reachable s)
    (p : MysticetiTransactionPosition) :
    p ∈ s.rejected_transactions ↔ ∃ e ∈ s.round_lookup_map, p ∈ e.2 := by
  obtain ⟨_, _, hmem1, hmem2⟩ := reachable_stateInv s hs
  exact ⟨fun h => hmem1 p h, fun ⟨e, he, hq⟩ => hmem2 e he p hq⟩

/-- Concrete instance of the C2 invariant after one rejection. -/
theorem rejected_iff_round_indexed_witness :
    posAt 1 ∈ trackerS1.rejected_transactions ↔
      ∃ e ∈ trackerS1.round_lookup_map, posAt 1 ∈ e.2 :=
  rejected_iff_round_indexed trackerS1
    (Reachable.reject InnerState.empty (posAt 1) Reachable.init) (posAt 1)

/-- C3: rejecting a position whose round is already outside the retention
window is a no-op: the state is returned unchanged and no notification is
delivered. -/
theorem reject_stale_noop (s : InnerState) (lcr : Nat)
    (p : MysticetiTransactionPosition)
    (h1 : s.last_committed_round = some lcr)
    (h2 : p.block_ref.round + ROUND_EXPIRATION < lcr) :
    reject_transaction s p = (s, false) := by
  unfold reject_transaction
  rw [h1]
  simp [h2]

/-- Concrete instance of C3 at last committed round 200 and position
round 1. -/
theorem reject_stale_noop_witness :
    reject_transaction trackerStale (posAt 1) = (trackerStale, false) :=
  reject_stale_noop trackerStale 200 (posAt 1) rfl (by decide)

/-- C4: on a consistent state, `update_last_committed_round r` keeps
exactly the non-expired prefix of the round map and the non-expired
rejected positions, sets the last committed round to `r`, and leaves only
rounds `k` with `r ≤ k + ROUND_EXPIRATION`. -/
theorem update_round_gc_filter (s : InnerState) (r : Nat) (hs : StateInv s) :
    (update_last_committed_round s r).round_lookup_map
      = s.round_lookup_map.filter (fun e => decide (r ≤ e.1 + ROUND_EXPIRATION))
    ∧ (update_last_committed_round s r).rejected_transactions
      = s.rejected_transactions.filter (fun q => r ≤ q.block_ref.round + ROUND_EXPIRATION)
    ∧ (update_last_committed_round s r).last_committed_round = some r
    ∧ ∀ e ∈ (update_last_committed_round s r).round_lookup_map,
        r ≤ e.1 + ROUND_EXPIRATION := by
  rw [update_eq_of_stateInv s r hs]
  refine ⟨rfl, rfl, rfl, ?_⟩
  intro e he
  have := List.of_mem_filter he
  simpa using this

/-- Concrete C4 scenario: reject rounds 1..5, advance to round
`ROUND_EXPIRATION + 3`; rounds 1 and 2 are purged, rounds 3, 4, 5 remain. -/
theorem update_round_gc_filter_witness :
    StateInv trackerS5 ∧
    ((update_last_committed_round trackerS5 (ROUND_EXPIRATION + 3)).round_lookup_map
        = trackerS5.round_lookup_map.filter
            (fun e => decide (ROUND_EXPIRATION + 3 ≤ e.1 + ROUND_EXPIRATION))
      ∧ (update_last_committed_round trackerS5 (ROUND_EXPIRATION + 3)).rejected_transactions
          = trackerS5.rejected_transactions.filter
              (fun q => ROUND_EXPIRATION + 3 ≤ q.block_ref.round + ROUND_EXPIRATION)
      ∧ (update_last_committed_round trackerS5 (ROUND_EXPIRATION + 3)).last_committed_round
          = some (ROUND_EXPIRATION + 3)
      ∧ ∀ e ∈ (update_last_committed_round trackerS5 (ROUND_EXPIRATION + 3)).round_lookup_map,
          ROUND_EXPIRATION + 3 ≤ e.1 + ROUND_EXPIRATION) ∧
    (update_last_committed_round trackerS5 (ROUND_EXPIRATION + 3)).round_lookup_map.map Prod.fst
      = [3, 4, 5] ∧
    (update_last_committed_round trackerS5 (ROUND_EXPIRATION + 3)).rejected_transactions
      = {posAt 3, posAt 4, posAt 5} :=
  ⟨by decide, update_round_gc_filter trackerS5 (ROUND_EXPIRATION + 3) (by decide),
    by decide, by decide⟩

/-- C5: rejecting the same position twice with no intervening round update
leaves the state identical to rejecting it once. -/
theorem reject_transaction_idempotent (s : InnerState)
    (p : MysticetiTransactionPosition) :
    (reject_transaction (reject_transaction s p).1 p).1 = (reject_transaction s p).1 := by
  have hins : insertRejected (insertRejected s p) p = insertRejected s p := by
    unfold insertRejected
    simp [mapInsert_idem]
  cases hl : s.last_committed_round with
  | none =>
    have h1 : reject_transaction s p = (insertRejected s p, true) := by
      unfold reject_transaction
      rw [hl]
    have h2 : (insertRejected s p).last_committed_round = none := hl
    have h3 : reject_transaction (insertRejected s p) p
        = (insertRejected (insertRejected s p) p, true) := by
      unfold reject_transaction
      rw [h2]
    rw [h1]
    rw [h3]
    simpa using hins
  | some lcr =>
    by_cases hc : p.block_ref.round + ROUND_EXPIRATION < lcr
    · have h1 : reject_transaction s p = (s, false) := by
        unfold reject_transaction
        rw [hl]
        simp [hc]
      rw [h1]
      rw [h1]
    · have h1 : reject_transaction s p = (insertRejected s p, true) := by
        unfold reject_transaction
        rw [hl]
        simp [hc]
      have h2 : (insertRejected s p).last_committed_round = some lcr := hl
      have h3 : reject_transaction (insertRejected s p) p
          = (insertRejected (insertRejected s p) p, true) := by
        unfold reject_transaction
        rw [h2]
        simp [hc]
      rw [h1]
      rw [h3]
      simpa using hins

/-- C7: both enqueue entry points schedule exactly the certificates whose
epoch matches the epoch store's epoch, in order; mismatching certificates
are dropped with nothing spawned for them (and the functions have no error
channel at all). -/
theorem enqueue_filters_epoch_mismatch (certs : List ExecutableTransaction)
    (pairs : List (ExecutableTransaction × Nat)) (storeEpoch : Nat) :
    enqueue certs storeEpoch
      = (certs.filter (fun c => c.epoch = storeEpoch)).map
          (fun c => (c, (none : Option Nat)))
    ∧ enqueue_with_expected_effects_digest pairs storeEpoch
      = (pairs.filter (fun q => q.fst.epoch = storeEpoch)).map
          (fun q => (q.fst, some q.snd)) := by
  constructor
  · unfold enqueue enqueue_impl
    induction certs with
    | nil => rfl
    | cons c cs ih =>
      simp only [List.map_cons, List.filterMap_cons, List.filter_cons]
      by_cases h : c.epoch = storeEpoch
      · simp [h, ih]
      · simp [h, ih]
  · unfold enqueue_with_expected_effects_digest enqueue_impl
    induction pairs with
    | nil => rfl
    | cons q qs ih =>
      simp only [List.map_cons, List.filterMap_cons, List.filter_cons]
      by_cases h : q.fst.epoch = storeEpoch
      · simp [h, ih]
      · simp [h, ih]

/-- C9: when input-object-key resolution fails, `schedule_transaction`
emits nothing on the hand-off channel, whatever the race outcome. -/
theorem schedule_resolution_failure_silent (cert : ExecutableTransaction)
    (expected : Option Nat) (winner : RaceWinner) (t1 t2 : Nat) :
    schedule_transaction cert expected none winner t1 t2 = [] := rfl

/-- C10: `update_last_committed_round` has no monotonicity guard: a
regressive round `r` still overwrites the high-water mark with `some r`,
and (since every retained round is within the window of the old, larger
mark) the expiry loop removes nothing. -/
theorem update_round_regression (s : InnerState) (r lcr0 : Nat)
    (h1 : s.last_committed_round = some lcr0) (h2 : r ≤ lcr0)
    (h3 : ∀ e ∈ s.round_lookup_map, lcr0 ≤ e.1 + ROUND_EXPIRATION) :
    (update_last_committed_round s r).last_committed_round = some r
    ∧ (update_last_committed_round s r).round_lookup_map = s.round_lookup_map
    ∧ (update_last_committed_round s r).rejected_transactions
        = s.rejected_transactions := by
  have hgc : gcExpire r s.round_lookup_map s.rejected_transactions
      = (s.round_lookup_map, s.rejected_transactions) := by
    cases hm : s.round_lookup_map with
    | nil => rfl
    | cons hd tl =>
      obtain ⟨k, sk⟩ := hd
      have hk := h3 (k, sk) (by rw [hm]; exact List.mem_cons_self _ _)
      simp only at hk
      unfold gcExpire
      rw [if_neg (by omega)]
  unfold update_last_committed_round
  rw [hgc]
  exact ⟨rfl, rfl, rfl⟩

/-- Concrete instance of C10: high-water mark 150 regresses to 140 while
round 60 stays retained. -/
theorem update_round_regression_witness :
    (update_last_committed_round trackerHigh 140).last_committed_round = some 140
    ∧ (update_last_committed_round trackerHigh 140).round_lookup_map
        = trackerHigh.round_lookup_map
    ∧ (update_last_committed_round trackerHigh 140).rejected_transactions
        = trackerHigh.rejected_transactions :=
  update_round_regression trackerHigh 140 150 rfl (by decide) (by decide)

/-- C1 (code bug): for an already-rejected, non-expired position the
immediate path of `wait_for_rejection` returns the reason string
"Rejectd" (source line 83), not the "Rejected" the spec and the module's
own test assert. -/
theorem wait_immediate_reason_misspelled :
    wait_for_rejection_immediate trackerS1 (posAt 1)
      = some (SuiErrorModel.transactionRejectedByConsensus "Rejectd")
    ∧ "Rejectd" ≠ "Rejected" := by
  constructor
  · decide
  · decide

/-- C6 (code bug): `wait_for_rejection` can resolve with the reason
"Rejectd", which is none of the three documented terminal outcomes. -/
theorem wait_reason_outside_documented_set :
    wait_for_rejection trackerS1 (posAt 1) WaitWinner.timedOut
      = SuiErrorModel.transactionRejectedByConsensus "Rejectd"
    ∧ "Rejectd" ≠ "Rejected" ∧ "Rejectd" ≠ "Expired" ∧ "Rejectd" ≠ "TimedOut" := by
  refine ⟨by decide, by decide, by decide, by decide⟩

/-- Decoding undoes the little-endian `u32` encoding for in-range values,
leaving the rest of the input untouched. -/
theorem decodeU32_encodeU32 (n : Nat) (rest : List Nat) (h : n < 4294967296) :
    decodeU32 (encodeU32 n ++ rest) = some (n, rest) := by
  simp only [encodeU32, List.cons_append, List.nil_append, decodeU32]
  have hsum : n % 256 + 256 * (n / 256 % 256) + 65536 * (n / 65536 % 256)
      + 16777216 * (n / 16777216 % 256) = n := by omega
  rw [hsum]

/-- Reading exactly the leading block of bytes returns it and the tail. -/
theorem readBytes_append (bs rest : List Nat) (n : Nat) (h : bs.length = n) :
    readBytes n (bs ++ rest) = some (bs, rest) := by
  subst h
  unfold readBytes
  rw [if_pos (by simp)]
  rw [List.take_left, List.drop_left]

/-- The digest byte-string round-trips through its length-prefixed form. -/
theorem decodeDigestBytes_encodeDigestBytes (bs : List Nat) :
    decodeDigestBytes (encodeDigestBytes bs) = some bs := by
  unfold encodeDigestBytes decodeDigestBytes
  dsimp only
  rw [show readBytes bs.length bs = some (bs, []) from by
    simpa using readBytes_append bs [] bs.length rfl]
  rfl

/-- A well-formed transaction position round-trips through its `bcs`
encoding. -/
theorem decodePosition_encodePosition (p : MysticetiTransactionPosition)
    (h1 : p.block_ref.round < 4294967296) (h2 : p.block_ref.author < 4294967296)
    (h3 : p.block_ref.digest.length = 32) (h4 : p.transaction_index < 4294967296) :
    decodePosition (encodePosition p) = some p := by
  unfold encodePosition decodePosition
  rw [List.append_assoc, List.append_assoc]
  rw [decodeU32_encodeU32 _ _ h1]
  dsimp only
  rw [decodeU32_encodeU32 _ _ h2]
  dsimp only
  rw [readBytes_append _ _ _ h3]
  dsimp only
  rw [show encodeU32 p.transaction_index
      = encodeU32 p.transaction_index ++ [] from (List.append_nil _).symm]
  rw [decodeU32_encodeU32 _ _ h4]
  rfl

/-- C8: converting a well-formed native wait-for-effects request to the
raw wire form and back yields the original request: the digest, the
position, and the three inclusion flags are all preserved. -/
theorem request_raw_roundtrip (req : WaitForEffectsRequest) (h : RequestWF req) :
    requestOfRaw (rawOfRequest req) = some req := by
  obtain ⟨hd, h1, h2, h3, h4⟩ := h
  unfold rawOfRequest requestOfRaw
  dsimp only
  rw [decodeDigestBytes_encodeDigestBytes]
  dsimp only
  rw [decodePosition_encodePosition _ h1 h2 h3 h4]

/-- Concrete instance of the C8 round-trip on a well-formed request. -/
theorem request_raw_roundtrip_witness :
    RequestWF sampleRequest
    ∧ requestOfRaw (rawOfRequest sampleRequest) = some sampleRequest :=
  ⟨by decide, request_raw_roundtrip sampleRequest (by decide)⟩
